import Mathlib

set_option maxRecDepth 20000
set_option exponentiation.threshold 10000

/-!
Verification of the ceres-mpq archive reader (`src/util.rs`, `src/archive.rs`).

The Rust source is shallowly embedded: byte buffers become `List Nat` (each
element `< 256`), 32-bit machine integers become `Nat` with explicit
`% 2^32` wherever Rust wraps, fallible code returns `Except Error`.
The external compression libraries (flate2, bzip2, implode) are abstracted
as a record of codec functions; everything driving them is translated from
the source.  Constants and types that live in repository files not present
under `src/` (`consts.rs`, `error.rs`) and the seeker/table helpers
(`seeker.rs`, `table.rs`) are modelled from the specification and marked
as such in their doc comments.
-/

namespace CeresMpq

/-- Reduction modulo 2^32, the wrapping of Rust `u32` arithmetic. -/
def mod32 (n : Nat) : Nat := n % 4294967296

/-- Modelled from the spec: `MPQ_HASH_HASH_A` hash domain (`consts.rs` is not
under `src/`); §4.A gives `HASH_A = 0x100`. -/
def MPQ_HASH_HASH_A : Nat := 0x100

/-- Modelled from the spec: `MPQ_HASH_FILE_KEY` hash domain; §4.A gives
`FILE_KEY = 0x300`. -/
def MPQ_HASH_FILE_KEY : Nat := 0x300

/-- Modelled from the spec: `MPQ_HASH_KEY2_MIX`, the fifth mix-table column
(`0x400`), per §4.A's column-offset scheme for the 5-column table. -/
def MPQ_HASH_KEY2_MIX : Nat := 0x400

/-- Modelled from the spec: compression mask bit `HUFFMAN = 0x01` (§6). -/
def COMPRESSION_HUFFMAN : Nat := 0x01

/-- Modelled from the spec: compression mask bit `DEFLATE = 0x02` (§6). -/
def COMPRESSION_ZLIB : Nat := 0x02

/-- Modelled from the spec: compression mask bit `IMPLODE = 0x08` (§6). -/
def COMPRESSION_PKWARE : Nat := 0x08

/-- Modelled from the spec: compression mask bit `BZIP2 = 0x10` (§6). -/
def COMPRESSION_BZIP2 : Nat := 0x10

/-- Modelled from the spec: compression mask bit `ADPCM_MONO = 0x40` (§6);
the source names it `COMPRESSION_IMA_ADPCM_MONO_MONO`. -/
def COMPRESSION_IMA_ADPCM_MONO_MONO : Nat := 0x40

/-- Modelled from the spec: compression mask bit `ADPCM_STEREO = 0x80` (§6);
the source names it `COMPRESSION_IMA_ADPCM_MONO_STEREO`. -/
def COMPRESSION_IMA_ADPCM_MONO_STEREO : Nat := 0x80

/-- Modelled from the spec: block-entry flag `ENCRYPTED = 0x00010000` (§6). -/
def BLOCK_FLAG_ENCRYPTED : Nat := 0x00010000

/-- Modelled from the spec: block-entry flag `KEY_ADJUSTED = 0x00020000` (§6). -/
def BLOCK_FLAG_KEY_ADJUSTED : Nat := 0x00020000

/-- Modelled from the spec: the error taxonomy of §7 (`error.rs` is not under
`src/`).  `UnsupportedCompression` carries the codec kind string, as in the
source's `Error::UnsupportedCompression { kind }`. -/
inductive Error where
  | NotAnArchive : Error
  | Corrupted : Error
  | FileNotFound : Error
  | UnsupportedFeature : Error
  | UnsupportedCompression : String → Error
  | IoError : Error
  | PoisonedRWLock : Error
deriving DecidableEq, Repr

/-- The seed update `seed = (seed * 125 + 3) % 0x002A_AAAB` of
`generate_crypto_table` in `util.rs`. -/
def cryptoSeedStep (s : Nat) : Nat := (s * 125 + 3) % 0x002AAAAB

/-- The body of the inner `for j in 0..5` loop of `generate_crypto_table` in
`util.rs`, acting on the `(crypto_table, seed)` state. -/
def generateCryptoInner (i : Nat) (acc : List Nat × Nat) (j : Nat) :
    List Nat × Nat :=
  let index := i + j * 0x100
  let seed := cryptoSeedStep acc.2
  let t1 := (seed &&& 0xFFFF) <<< 0x10
  let seed2 := cryptoSeedStep seed
  let t2 := seed2 &&& 0xFFFF
  (acc.1.set index (t1 ||| t2), seed2)

/-- `generate_crypto_table` from `util.rs`: the 0x500-entry mix table.
The source's nested `for i in 0..0x100 { for j in 0..5 { … } }` loop filling
`crypto_table[i + j*0x100]` is rendered as nested folds carrying the
`(table, seed)` state. -/
def generate_crypto_table : List Nat :=
  ((List.range 0x100).foldl
    (fun acc i => (List.range 5).foldl (generateCryptoInner i) acc)
    (List.replicate 0x500 0, 0x00100001)).1

/-- The lazily initialised `CRYPTO_TABLE` of `util.rs`. -/
def CRYPTO_TABLE : List Nat := generate_crypto_table

/-- Indexing `CRYPTO_TABLE[i]`; every index the source uses is in bounds. -/
def cryptoGet (i : Nat) : Nat := CRYPTO_TABLE.getD i 0

/-- Closed form of the seed after `n` updates: the update is affine, so
`seed_n = (125^n * seed_0 + 3 * (125^n - 1)/124) mod 0x2AAAAB`.  Used only to
evaluate concrete table entries without deep recursion; proved equal to the
iterated `cryptoSeedStep` below. -/
def cryptoSeedAt (n : Nat) : Nat :=
  (125 ^ n * 0x00100001 + 3 * ((125 ^ n - 1) / 124)) % 0x002AAAAB

/-- The table entry produced by loop iteration `(i, j)` (stored at index
`i + j * 0x100`): it packs the seeds after `10*i + 2*j + 1` and
`10*i + 2*j + 2` updates. -/
def cryptoEntryAt (i j : Nat) : Nat :=
  ((cryptoSeedAt (10 * i + 2 * j + 1) &&& 0xFFFF) <<< 0x10) |||
    (cryptoSeedAt (10 * i + 2 * j + 2) &&& 0xFFFF)

/-- Closed form of the whole mix table, proved equal to `cryptoGet` below. -/
def cryptoTableClosed (idx : Nat) : Nat :=
  if idx < 0x500 then cryptoEntryAt (idx % 0x100) (idx / 0x100) else 0

/-- Modelled from the spec: `ASCII_UPPER_LOOKUP_SLASH_SENSITIVE` from
`consts.rs` (not under `src/`); §4.A: ASCII-only uppercase lookup,
non-letters (in particular `/` and `\`) unchanged. -/
def asciiUpperLookupSlashSensitive (b : Nat) : Nat :=
  if 0x61 ≤ b ∧ b ≤ 0x7A then b - 0x20 else b

/-- The loop body of `hash_string_with_table` in `util.rs`, advancing the
`(seed1, seed2)` state by one input byte. -/
def hashStep (hash_type : Nat) (lookup : Nat → Nat) (p : Nat × Nat)
    (byte : Nat) : Nat × Nat :=
  let upper := lookup byte
  let seed1 := cryptoGet (hash_type + upper) ^^^ mod32 (p.1 + p.2)
  let seed2 := mod32 (upper + seed1 + p.2 + mod32 (p.2 <<< 5) + 3)
  (seed1, seed2)

/-- `hash_string_with_table` from `util.rs`: fold the two seeds over the
input bytes. -/
def hash_string_with_table (source : List Nat) (hash_type : Nat)
    (lookup : Nat → Nat) : Nat :=
  (source.foldl (hashStep hash_type lookup) (0x7FED7FED, 0xEEEEEEEE)).1

/-- `hash_string` from `util.rs`. -/
def hash_string (source : List Nat) (hash_type : Nat) : Nat :=
  hash_string_with_table source hash_type asciiUpperLookupSlashSensitive

/-- One pass of `decrypt_mpq_block`'s loop over the 32-bit lanes.  The Rust
`!key` on `u32` is `4294967295 - key` (the internal key always stays below
2^32). -/
def decryptWords : Nat → Nat → List Nat → List Nat
  | _, _, [] => []
  | key, key_secondary, x :: xs =>
    let key_secondary :=
      mod32 (key_secondary + cryptoGet (MPQ_HASH_KEY2_MIX + (key &&& 0xFF)))
    let x := x ^^^ mod32 (key + key_secondary)
    let temp := x
    let key :=
      mod32 (mod32 ((4294967295 - key) <<< 0x15) + 0x11111111) |||
        key >>> 0x0B
    let key_secondary :=
      mod32 (temp + key_secondary + mod32 (key_secondary <<< 5) + 3)
    x :: decryptWords key key_secondary xs

/-- One pass of `encrypt_mpq_block`'s loop; identical to decryption except
that `temp` is the plaintext lane, read before the XOR. -/
def encryptWords : Nat → Nat → List Nat → List Nat
  | _, _, [] => []
  | key, key_secondary, x :: xs =>
    let key_secondary :=
      mod32 (key_secondary + cryptoGet (MPQ_HASH_KEY2_MIX + (key &&& 0xFF)))
    let temp := x
    let x := x ^^^ mod32 (key + key_secondary)
    let key :=
      mod32 (mod32 ((4294967295 - key) <<< 0x15) + 0x11111111) |||
        key >>> 0x0B
    let key_secondary :=
      mod32 (temp + key_secondary + mod32 (key_secondary <<< 5) + 3)
    x :: encryptWords key key_secondary xs

/-- The `as_mut_slice_of::<u32>` view: group bytes into little-endian 32-bit
words, ignoring a trailing fragment of fewer than 4 bytes. -/
def bytesToWordsLE : List Nat → List Nat
  | b0 :: b1 :: b2 :: b3 :: rest =>
    (b0 + b1 * 256 + b2 * 65536 + b3 * 16777216) :: bytesToWordsLE rest
  | _ => []

/-- Write 32-bit words back as little-endian bytes. -/
def wordsToBytesLE : List Nat → List Nat
  | [] => []
  | w :: rest =>
    w % 256 :: w / 256 % 256 :: w / 65536 % 256 :: w / 16777216 % 256 ::
      wordsToBytesLE rest

/-- `decrypt_mpq_block` from `util.rs`: the first `(len >> 2) * 4` bytes are
processed as little-endian `u32` lanes, the trailing bytes are untouched. -/
def decrypt_mpq_block (data : List Nat) (key : Nat) : List Nat :=
  let iterations := data.length >>> 2
  wordsToBytesLE
      (decryptWords key 0xEEEEEEEE (bytesToWordsLE (data.take (iterations * 4))))
    ++ data.drop (iterations * 4)

/-- `encrypt_mpq_block` from `util.rs`. -/
def encrypt_mpq_block (data : List Nat) (key : Nat) : List Nat :=
  let iterations := data.length >>> 2
  wordsToBytesLE
      (encryptWords key 0xEEEEEEEE (bytesToWordsLE (data.take (iterations * 4))))
    ++ data.drop (iterations * 4)

/-- The loop body of `get_plain_name` in `util.rs`: at a separator byte the
kept suffix becomes the bytes after it. -/
def plainNameStep (input : List Nat) (out : List Nat) (i : Nat) : List Nat :=
  if input.getD i 0 == 0x5C || input.getD i 0 == 0x2F then input.drop (i + 1)
  else out

/-- `get_plain_name` from `util.rs`: the loop scans every index and keeps the
suffix after each separator, ending with the suffix after the last `/` or
`\`. -/
def get_plain_name (input : List Nat) : List Nat :=
  (List.range input.length).foldl (plainNameStep input) input

/-- `calculate_file_key` from `util.rs`.  The `key + file_offset` addition is
`u32` arithmetic, hence the `mod32`. -/
def calculate_file_key (file_name : List Nat) (file_offset : Nat)
    (file_size : Nat) (adjusted : Bool) : Nat :=
  let plain_name := get_plain_name file_name
  let key := hash_string plain_name MPQ_HASH_FILE_KEY
  if adjusted then mod32 (key + file_offset) ^^^ file_size else key

/-- `sector_count_from_size` from `util.rs`. -/
def sector_count_from_size (size : Nat) (sector_count : Nat) : Nat :=
  if size = 0 then 1 else (size - 1) / sector_count + 1

/-- The external compression libraries driven by `decode_mpq_block` and
`compress_mpq_block`, abstracted as functions: `explodeBlocks` is the
sequence of output blocks the PKWARE `Exploder` emits until `ended`;
`bzip2Decompress` and `inflate` return the full decompressed stream or
`none` on failure; `deflate` is the zlib compressor's full output. -/
structure Codecs where
  explodeBlocks : List Nat → List (List Nat)
  bzip2Decompress : List Nat → Option (List Nat)
  inflate : List Nat → Option (List Nat)
  deflate : List Nat → List Nat

/-- The copy loop `for (d, s) in decompressed.iter_mut().zip(bf.iter())`:
overwrite the prefix of `dst` with `src`, truncating at either length. -/
def overwriteFront (dst src : List Nat) : List Nat :=
  src.take dst.length ++ dst.drop src.length

/-- The PKWARE branch of `decode_mpq_block`: drive the exploder to
completion; every emitted block is copied to the front of a buffer of
`uncompressed_size` zeroes while `c` accumulates the copied counts, and the
buffer is finally resized to `c` (padding with zeroes when `c` exceeds it). -/
def explodeDriver (blocks : List (List Nat)) (uncompressed_size : Nat) :
    List Nat :=
  let st := blocks.foldl
    (fun (p : List Nat × Nat) bf =>
      (overwriteFront p.1 bf, p.2 + min p.1.length bf.length))
    (List.replicate uncompressed_size 0, 0)
  st.1.take st.2 ++ List.replicate (st.2 - st.1.length) 0

/-- The PKWARE stage: the exploder consumes the buffer from position 1
(`cpos` starts at 1, skipping the compression-mask byte). -/
def explodeStage (explodeBlocks : List Nat → List (List Nat)) (buf : List Nat)
    (uncompressed_size : Nat) : List Nat :=
  explodeDriver (explodeBlocks (buf.drop 1)) uncompressed_size

/-- The bzip2 branch of `decode_mpq_block`: decompress `buf[1..]` into a
buffer of `uncompressed_size` bytes (resized to `total_out`, hence the
`take`); a failing status is `Error::Corrupted`. -/
def bzip2Stage (bzip2Decompress : List Nat → Option (List Nat))
    (buf : List Nat) (uncompressed_size : Nat) : Except Error (List Nat) :=
  match bzip2Decompress (buf.drop 1) with
  | none => .error .Corrupted
  | some d => .ok (d.take uncompressed_size)

/-- The zlib branch of `decode_mpq_block`, structured like `bzip2Stage`. -/
def zlibStage (inflate : List Nat → Option (List Nat)) (buf : List Nat)
    (uncompressed_size : Nat) : Except Error (List Nat) :=
  match inflate (buf.drop 1) with
  | none => .error .Corrupted
  | some d => .ok (d.take uncompressed_size)

/-- The optional in-place decryption at the top of `decode_mpq_block`. -/
def decryptOpt (encryption_key : Option Nat) (input : List Nat) : List Nat :=
  match encryption_key with
  | some key => decrypt_mpq_block input key
  | none => input

/-- The compressed branch of `decode_mpq_block` (`util.rs` lines 173–246),
acting on the (decrypted) sector buffer: read the compression mask from
`buf[0]`, reject unsupported codecs, then run the `if` branches in source
order — PKWARE explode, then bzip2, then zlib — each reading the buffer
left by the previous branch.  The source's `buf[0]` read panics on an empty
buffer; the embedding surfaces that impossible read as `Corrupted`. -/
def decodeCompressed (co : Codecs) (buf : List Nat)
    (uncompressed_size : Nat) : Except Error (List Nat) :=
  match buf with
  | [] => .error .Corrupted
  | compression_type :: rest =>
    if compression_type &&& COMPRESSION_IMA_ADPCM_MONO_MONO ≠ 0 then
      .error (.UnsupportedCompression "IMA ADCPM Mono")
    else if compression_type &&& COMPRESSION_IMA_ADPCM_MONO_STEREO ≠ 0 then
      .error (.UnsupportedCompression "IMA ADCPM Stereo")
    else if compression_type &&& COMPRESSION_HUFFMAN ≠ 0 then
      .error (.UnsupportedCompression "Huffman")
    else
      let buf1 :=
        if compression_type &&& COMPRESSION_PKWARE ≠ 0 then
          explodeStage co.explodeBlocks (compression_type :: rest)
            uncompressed_size
        else compression_type :: rest
      match (if compression_type &&& COMPRESSION_BZIP2 ≠ 0 then
          bzip2Stage co.bzip2Decompress buf1 uncompressed_size
        else .ok buf1) with
      | .error e => .error e
      | .ok buf2 =>
        if compression_type &&& COMPRESSION_ZLIB ≠ 0 then
          zlibStage co.inflate buf2 uncompressed_size
        else .ok buf2

/-- `decode_mpq_block` from `util.rs`: decrypt when a key is given, enter
the codec dispatch only when the raw size is strictly below the expected
uncompressed size, and otherwise return the buffer as is. -/
def decode_mpq_block (co : Codecs) (input : List Nat)
    (uncompressed_size : Nat) (encryption_key : Option Nat) :
    Except Error (List Nat) :=
  let compressed_size := input.length
  let buf := decryptOpt encryption_key input
  if compressed_size < uncompressed_size then
    decodeCompressed co buf uncompressed_size
  else .ok buf

/-- `compress_mpq_block` from `util.rs`: deflate into a buffer of
`input.len()` bytes after the mask byte (`total_out` is capped by the
buffer), return the input verbatim unless the result including the mask byte
is strictly smaller. -/
def compress_mpq_block (co : Codecs) (input : List Nat) : List Nat :=
  let deflated := co.deflate input
  let total_out := min deflated.length input.length
  if total_out + 1 ≥ input.length then input
  else COMPRESSION_ZLIB :: deflated.take total_out

/-- Modelled from the spec: a block-table entry (§3; `table.rs` is not under
`src/`). -/
structure BlockEntry where
  file_pos : Nat
  compressed_size : Nat
  uncompressed_size : Nat
  flags : Nat
deriving DecidableEq, Repr

/-- Modelled from the spec: the `ENCRYPTED` flag predicate (§4.E). -/
def BlockEntry.is_encrypted (e : BlockEntry) : Bool :=
  e.flags &&& BLOCK_FLAG_ENCRYPTED != 0

/-- Modelled from the spec: the `KEY_ADJUSTED` flag predicate (§4.E). -/
def BlockEntry.is_key_adjusted (e : BlockEntry) : Bool :=
  e.flags &&& BLOCK_FLAG_KEY_ADJUSTED != 0

/-- Modelled from the spec: the cursor's `read_at(offset, len)` over the
archive bytes (§4.B; `seeker.rs` is not under `src/`), failing on a short
read. -/
def readAt (reader : List Nat) (offset : Nat) (size : Nat) :
    Except Error (List Nat) :=
  if offset + size ≤ reader.length then .ok ((reader.drop offset).take size)
  else .error .IoError

/-- Modelled from the spec: the §4.F invariant check that sector offsets are
non-decreasing. -/
def offsetsNondecreasing : List Nat → Bool
  | [] => true
  | [_] => true
  | a :: b :: rest => a ≤ b && offsetsNondecreasing (b :: rest)

/-- Modelled from the spec: the per-file sector-offset vector (§4.F;
`table.rs` is not under `src/`). -/
structure SectorOffsets where
  offsets : List Nat
deriving DecidableEq, Repr

/-- Modelled from the spec: `SectorOffsets::count()`, the number `N` of
payload sectors. -/
def SectorOffsets.count (s : SectorOffsets) : Nat := s.offsets.length - 1

/-- Modelled from the spec: `SectorOffsets::one(i) → (offset_i, length_i)`. -/
def SectorOffsets.one (s : SectorOffsets) (i : Nat) : Option (Nat × Nat) :=
  if i + 1 < s.offsets.length then
    some (s.offsets.getD i 0, s.offsets.getD (i + 1) 0 - s.offsets.getD i 0)
  else none

/-- Modelled from the spec: `SectorOffsets::all() → (offset_0, total_length)`. -/
def SectorOffsets.all (s : SectorOffsets) : Nat × Nat :=
  (s.offsets.headD 0, s.offsets.getLastD 0 - s.offsets.headD 0)

/-- Modelled from the spec: `SectorOffsets::from_reader` (§4.F): read
`4*(N+1)` bytes at `file_pos`, decrypt when a key is given, parse as
little-endian `u32`s, and reject non-monotone offsets or a final offset
beyond `compressed_size` as `Corrupted`. -/
def sector_offsets_from_reader (reader : List Nat) (entry : BlockEntry)
    (sector_size : Nat) (encryption_key : Option Nat) :
    Except Error SectorOffsets :=
  let n := sector_count_from_size entry.uncompressed_size sector_size
  match readAt reader entry.file_pos (4 * (n + 1)) with
  | .error e => .error e
  | .ok raw =>
    let offsets := bytesToWordsLE (decryptOpt encryption_key raw)
    if offsetsNondecreasing offsets &&
        offsets.getLastD 0 ≤ entry.compressed_size then
      .ok ⟨offsets⟩
    else .error .Corrupted

/-- The per-sector expected uncompressed size of `Archive::read_file`
(`archive.rs` lines 112–122): the last sector holds
`uncompressed_size % sector_size` bytes, or a full sector when that
remainder is zero. -/
def sector_uncompressed_size (entry : BlockEntry) (sector_size : Nat)
    (i : Nat) (sector_count : Nat) : Nat :=
  if i + 1 = sector_count then
    let size := entry.uncompressed_size % sector_size
    if size = 0 then sector_size else size
  else sector_size

/-- The `for i in 0..sector_count` loop of `Archive::read_file`: slice the
raw data at the relative sector offsets, decode sector `i` with key
`key + i`, and append to the result; `remaining` counts the iterations
left. -/
def read_file_loop (co : Codecs) (raw_data : List Nat) (so : SectorOffsets)
    (first_sector_offset : Nat) (sector_size : Nat) (entry : BlockEntry)
    (encryption_key : Option Nat) (sector_count : Nat) :
    Nat → Nat → Except Error (List Nat)
  | _, 0 => .ok []
  | i, remaining + 1 =>
    let sector_offset := (so.one i).getD (0, 0)
    let slice_start := sector_offset.1 - first_sector_offset
    let slice_end := slice_start + sector_offset.2
    let u := sector_uncompressed_size entry sector_size i sector_count
    match decode_mpq_block co
        ((raw_data.drop slice_start).take (slice_end - slice_start)) u
        (encryption_key.map (fun k => mod32 (k + i))) with
    | .error e => .error e
    | .ok decoded =>
      match read_file_loop co raw_data so first_sector_offset sector_size
          entry encryption_key sector_count (i + 1) remaining with
      | .error e => .error e
      | .ok rest => .ok (decoded ++ rest)

/-- `Archive::read_file` from `archive.rs`, with the hash/block-table
resolution abstracted as the given `entry` for `name`, the cursor as the
`reader` bytes, and `sector_size` from the archive descriptor.  The
sector-offset vector is decrypted with `key - 1` (wrapping) and payload
sector `i` with `key + i` (wrapping). -/
def read_file (co : Codecs) (reader : List Nat) (sector_size : Nat)
    (entry : BlockEntry) (name : List Nat) : Except Error (List Nat) :=
  let encryption_key : Option Nat :=
    if entry.is_encrypted then
      some (calculate_file_key name entry.file_pos entry.uncompressed_size
        entry.is_key_adjusted)
    else none
  match sector_offsets_from_reader reader entry sector_size
      (encryption_key.map (fun k => mod32 (k + 0xFFFFFFFF))) with
  | .error e => .error e
  | .ok sector_offsets =>
    let sector_range := sector_offsets.all
    match readAt reader (entry.file_pos + sector_range.1) sector_range.2 with
    | .error e => .error e
    | .ok raw_data =>
      let sector_count := sector_offsets.count
      let first_sector_offset := ((sector_offsets.one 0).getD (0, 0)).1
      read_file_loop co raw_data sector_offsets first_sector_offset
        sector_size entry encryption_key sector_count 0 sector_count

/-- UTF-8 validity of a byte sequence per RFC 3629, the check performed by
`std::str::from_utf8` in `Archive::files`; `pending` lists the admissible
ranges of the continuation bytes still expected. -/
def validUtf8Go : List (Nat × Nat) → List Nat → Bool
  | [], [] => true
  | _ :: _, [] => false
  | (lo, hi) :: pending, b :: rest =>
    (lo ≤ b && b ≤ hi) && validUtf8Go pending rest
  | [], b :: rest =>
    if b < 0x80 then validUtf8Go [] rest
    else if 0xC2 ≤ b && b ≤ 0xDF then validUtf8Go [(0x80, 0xBF)] rest
    else if b == 0xE0 then validUtf8Go [(0xA0, 0xBF), (0x80, 0xBF)] rest
    else if (0xE1 ≤ b && b ≤ 0xEC) || b == 0xEE || b == 0xEF then
      validUtf8Go [(0x80, 0xBF), (0x80, 0xBF)] rest
    else if b == 0xED then validUtf8Go [(0x80, 0x9F), (0x80, 0xBF)] rest
    else if b == 0xF0 then
      validUtf8Go [(0x90, 0xBF), (0x80, 0xBF), (0x80, 0xBF)] rest
    else if 0xF1 ≤ b && b ≤ 0xF3 then
      validUtf8Go [(0x80, 0xBF), (0x80, 0xBF), (0x80, 0xBF)] rest
    else if b == 0xF4 then
      validUtf8Go [(0x80, 0x8F), (0x80, 0xBF), (0x80, 0xBF)] rest
    else false

/-- UTF-8 validity of a whole byte string. -/
def validUtf8 (l : List Nat) : Bool := validUtf8Go [] l

/-- The line loop of `Archive::files` (`archive.rs` lines 143–159): `cur`
holds `listfile[line_start..i]`; at a `\r` or `\n` a non-empty, valid-UTF-8
current line is emitted; bytes after the last terminator are dropped when
the input ends. -/
def files_lines : List Nat → List Nat → List (List Nat)
  | _, [] => []
  | cur, byte :: rest =>
    if byte == 13 || byte == 10 then
      if cur.length > 0 then
        if validUtf8 cur then cur :: files_lines [] rest
        else files_lines [] rest
      else files_lines [] rest
    else files_lines (cur ++ [byte]) rest

/-- `Archive::files` from `archive.rs`, with the `read_file("(listfile)")`
call abstracted as its result: any error becomes `none` (the source's
`.ok()?`), otherwise the listfile bytes are split into lines. -/
def files (read_result : Except Error (List Nat)) :
    Option (List (List Nat)) :=
  match read_result with
  | .error _ => none
  | .ok listfile => some (files_lines [] listfile)

/-! ### Definitions written from the claims' words, for comparison -/

/-- The claim's plain name: the substring after the last `/` or `\`. -/
def plain_name_spec (input : List Nat) : List Nat :=
  (input.reverse.takeWhile (fun b => !(b == 0x5C || b == 0x2F))).reverse

/-- The claim's file key: `hash(plain_name, FILE_KEY)`, and
`(key + file_pos) XOR uncompressed_size` (wrapping) when key-adjusted. -/
def file_key_spec (name : List Nat) (file_pos : Nat)
    (uncompressed_size : Nat) (adjusted : Bool) : Nat :=
  let key := hash_string (plain_name_spec name) MPQ_HASH_FILE_KEY
  if adjusted then mod32 (key + file_pos) ^^^ uncompressed_size else key

/-- `read_file` rewritten with the key schedule exactly as claim C4 words
it: base key `hash(plain-name-after-last-separator, FILE_KEY)` (adjusted
variant when flagged), `key - 1` (wrapping) for the sector-offset vector,
`key + i` (wrapping) for payload sector `i`. -/
def read_file_spec_keys (co : Codecs) (reader : List Nat)
    (sector_size : Nat) (entry : BlockEntry) (name : List Nat) :
    Except Error (List Nat) :=
  let key := file_key_spec name entry.file_pos entry.uncompressed_size
    entry.is_key_adjusted
  let encryption_key : Option Nat :=
    if entry.is_encrypted then some key else none
  match sector_offsets_from_reader reader entry sector_size
      (encryption_key.map (fun k => mod32 (k + 0xFFFFFFFF))) with
  | .error e => .error e
  | .ok sector_offsets =>
    let sector_range := sector_offsets.all
    match readAt reader (entry.file_pos + sector_range.1) sector_range.2 with
    | .error e => .error e
    | .ok raw_data =>
      let sector_count := sector_offsets.count
      let first_sector_offset := ((sector_offsets.one 0).getD (0, 0)).1
      read_file_loop co raw_data sector_offsets first_sector_offset
        sector_size entry encryption_key sector_count 0 sector_count

/-- The codec dispatch in the order claim C1 asserts: deflate (zlib) first,
then PKWARE explode, then bzip2, each stage consuming the previous stage's
output. -/
def decodeCompressedClaimOrder (co : Codecs) (buf : List Nat)
    (uncompressed_size : Nat) : Except Error (List Nat) :=
  match buf with
  | [] => .error .Corrupted
  | compression_type :: rest =>
    if compression_type &&& COMPRESSION_IMA_ADPCM_MONO_MONO ≠ 0 then
      .error (.UnsupportedCompression "IMA ADCPM Mono")
    else if compression_type &&& COMPRESSION_IMA_ADPCM_MONO_STEREO ≠ 0 then
      .error (.UnsupportedCompression "IMA ADCPM Stereo")
    else if compression_type &&& COMPRESSION_HUFFMAN ≠ 0 then
      .error (.UnsupportedCompression "Huffman")
    else
      match (if compression_type &&& COMPRESSION_ZLIB ≠ 0 then
          zlibStage co.inflate (compression_type :: rest) uncompressed_size
        else .ok (compression_type :: rest)) with
      | .error e => .error e
      | .ok buf1 =>
        let buf2 :=
          if compression_type &&& COMPRESSION_PKWARE ≠ 0 then
            explodeStage co.explodeBlocks buf1 uncompressed_size
          else buf1
        if compression_type &&& COMPRESSION_BZIP2 ≠ 0 then
          bzip2Stage co.bzip2Decompress buf2 uncompressed_size
        else .ok buf2

/-- `decode_mpq_block` as claim C1 describes it, with the codec order of
`decodeCompressedClaimOrder`. -/
def decode_mpq_block_claim_order (co : Codecs) (input : List Nat)
    (uncompressed_size : Nat) (encryption_key : Option Nat) :
    Except Error (List Nat) :=
  let compressed_size := input.length
  let buf := decryptOpt encryption_key input
  if compressed_size < uncompressed_size then
    decodeCompressedClaimOrder co buf uncompressed_size
  else .ok buf

/-- The newline split the claims describe: segments of the input between
`\r`/`\n` terminators, the final segment being the unterminated tail. -/
def split_newlines : List Nat → List (List Nat)
  | [] => [[]]
  | b :: rest =>
    if b == 13 || b == 10 then [] :: split_newlines rest
    else
      match split_newlines rest with
      | s :: ss => (b :: s) :: ss
      | [] => [[b]]

/-- A line survives `files()` when it is non-empty and valid UTF-8. -/
def line_kept (l : List Nat) : Bool := l.length > 0 && validUtf8 l

/-- The lines `files()` actually returns: the kept terminated segments. -/
def terminated_lines_spec (c : List Nat) : List (List Nat) :=
  ((split_newlines c).dropLast).filter line_kept

/-- The lines claim C9 asserts: every kept segment, including an
unterminated final one. -/
def all_lines_claim (c : List Nat) : List (List Nat) :=
  (split_newlines c).filter line_kept

/-- Closed form of the hash fold step against `cryptoTableClosed`; proved
equal to `hashStep` and used to evaluate concrete hashes cheaply. -/
def hashStepClosed (hash_type : Nat) (lookup : Nat → Nat) (p : Nat × Nat)
    (byte : Nat) : Nat × Nat :=
  let upper := lookup byte
  let seed1 := cryptoTableClosed (hash_type + upper) ^^^ mod32 (p.1 + p.2)
  let seed2 := mod32 (upper + seed1 + p.2 + mod32 (p.2 <<< 5) + 3)
  (seed1, seed2)

/-- Concrete codecs whose stages are distinguishable, for the order
counterexample. -/
def codecsOrder : Codecs :=
  ⟨fun _ => [[5, 5]], fun _ => some [], fun _ => some [9, 9], fun _ => []⟩

/-- Concrete codecs whose inflate output is shorter than the expected
uncompressed size. -/
def codecsShort : Codecs :=
  ⟨fun _ => [], fun _ => none, fun _ => some [1], fun _ => []⟩

/-- Concrete codecs realising a deflate/inflate round trip for the bytes
`[7, 7, 7, 7, 7]`. -/
def codecsRoundtrip : Codecs :=
  ⟨fun _ => [], fun _ => none, fun _ => some [7, 7, 7, 7, 7], fun _ => [0]⟩

/-! ### Crypto-table closed form -/

theorem cryptoSeed_dvd (n : Nat) : 124 ∣ 125 ^ n - 1 := by
  induction n with
  | zero => simp
  | succ n ih =>
    obtain ⟨k, hk⟩ := ih
    have hpow : 1 ≤ 125 ^ n := Nat.one_le_pow _ _ (by norm_num)
    have hmul : 125 ^ (n + 1) = 125 * 125 ^ n := by rw [pow_succ]; ring
    exact ⟨125 * k + 1, by omega⟩

theorem cryptoSeedAt_zero : cryptoSeedAt 0 = 0x00100001 := by
  norm_num [cryptoSeedAt]

theorem cryptoSeedAt_succ (n : Nat) :
    cryptoSeedAt (n + 1) = cryptoSeedStep (cryptoSeedAt n) := by
  obtain ⟨k, hk⟩ := cryptoSeed_dvd n
  have hpow : 1 ≤ 125 ^ n := Nat.one_le_pow _ _ (by norm_num)
  have hP : 125 ^ n = 124 * k + 1 := by omega
  have hs : 125 ^ (n + 1) = 125 * (124 * k + 1) := by rw [pow_succ, hP]; ring
  unfold cryptoSeedAt cryptoSeedStep
  rw [hs, hP]
  have h1 : (125 * (124 * k + 1) - 1) / 124 = 125 * k + 1 := by omega
  have h2 : (124 * k + 1 - 1) / 124 = k := by omega
  rw [h1, h2]
  have key : ∀ X : Nat,
      (X % 0x002AAAAB * 125 + 3) % 0x002AAAAB = (X * 125 + 3) % 0x002AAAAB := by
    intro X
    rw [← Nat.mod_add_mod, Nat.mod_mul_mod, Nat.mod_add_mod]
  rw [key]
  congr 1
  ring

theorem cryptoSeedStep_seedAt (m : Nat) :
    cryptoSeedStep (cryptoSeedAt m) = cryptoSeedAt (m + 1) :=
  (cryptoSeedAt_succ m).symm

theorem getD_set_ne (l : List Nat) {i a : Nat} (v : Nat) (h : i ≠ a) :
    (l.set i v).getD a 0 = l.getD a 0 := by
  simp [List.getD_eq_getElem?_getD, List.getElem?_set_ne h]

theorem getD_set_self (l : List Nat) {i : Nat} (v : Nat) (h : i < l.length) :
    (l.set i v).getD i 0 = v := by
  simp [List.getD_eq_getElem?_getD, List.getElem?_set_self h]

theorem crypto_outer_step (n : Nat) (tbl : List Nat) :
    (List.range 5).foldl (generateCryptoInner n) (tbl, cryptoSeedAt (10 * n)) =
      (((((tbl.set n (cryptoEntryAt n 0)).set (n + 0x100) (cryptoEntryAt n 1)).set
          (n + 0x200) (cryptoEntryAt n 2)).set (n + 0x300) (cryptoEntryAt n 3)).set
          (n + 0x400) (cryptoEntryAt n 4),
        cryptoSeedAt (10 * n + 10)) := by
  show List.foldl (generateCryptoInner n) (tbl, cryptoSeedAt (10 * n)) [0, 1, 2, 3, 4] = _
  simp only [List.foldl_cons, List.foldl_nil, generateCryptoInner]
  simp only [cryptoSeedStep_seedAt]
  norm_num [cryptoEntryAt]

theorem crypto_fold_invariant : ∀ n, n ≤ 0x100 →
    ((List.range n).foldl
        (fun acc i => (List.range 5).foldl (generateCryptoInner i) acc)
        (List.replicate 0x500 0, 0x00100001)).2 = cryptoSeedAt (10 * n) ∧
    ((List.range n).foldl
        (fun acc i => (List.range 5).foldl (generateCryptoInner i) acc)
        (List.replicate 0x500 0, 0x00100001)).1.length = 0x500 ∧
    ∀ a, a < 0x500 →
      ((List.range n).foldl
          (fun acc i => (List.range 5).foldl (generateCryptoInner i) acc)
          (List.replicate 0x500 0, 0x00100001)).1.getD a 0 =
        if a % 0x100 < n then cryptoEntryAt (a % 0x100) (a / 0x100) else 0 := by
  intro n
  induction n with
  | zero =>
    intro _
    refine ⟨by rw [Nat.mul_zero]; exact cryptoSeedAt_zero.symm,
      by rw [List.range_zero, List.foldl_nil]; exact List.length_replicate .., ?_⟩
    intro a ha
    rw [List.range_zero, List.foldl_nil]
    rw [List.getD_eq_getElem?_getD, List.getElem?_replicate, if_pos ha,
      Option.getD_some, if_neg (by omega)]
  | succ n ih =>
    intro hn
    obtain ⟨hseed, hlen, hget⟩ := ih (by omega)
    have hlt : n < 0x100 := by omega
    have hst : (List.range (n + 1)).foldl
        (fun acc i => (List.range 5).foldl (generateCryptoInner i) acc)
        (List.replicate 0x500 0, 0x00100001) =
        (List.range 5).foldl (generateCryptoInner n)
          ((List.range n).foldl
            (fun acc i => (List.range 5).foldl (generateCryptoInner i) acc)
            (List.replicate 0x500 0, 0x00100001)) := by
      rw [show List.range (n + 1) = List.range n ++ [n] from List.range_succ n,
        List.foldl_append, List.foldl_cons, List.foldl_nil]
    have hpair : (List.range n).foldl
        (fun acc i => (List.range 5).foldl (generateCryptoInner i) acc)
        (List.replicate 0x500 0, 0x00100001) =
        (((List.range n).foldl
            (fun acc i => (List.range 5).foldl (generateCryptoInner i) acc)
            (List.replicate 0x500 0, 0x00100001)).1, cryptoSeedAt (10 * n)) := by
      rw [← hseed]
    have hten : 10 * n + 10 = 10 * (n + 1) := by ring
    rw [hst, hpair, crypto_outer_step, hten]
    refine ⟨rfl, by simp only [List.length_set]; exact hlen, ?_⟩
    intro a ha
    by_cases hmod : a % 0x100 = n
    · obtain ⟨j, hj5, haj⟩ : ∃ j, j < 5 ∧ a = n + 0x100 * j :=
        ⟨a / 0x100, by omega, by omega⟩
      subst haj
      interval_cases j
      · have ha0 : n + 0x100 * 0 = n := by omega
        rw [ha0,
          getD_set_ne _ _ (show n + 0x400 ≠ n by omega),
          getD_set_ne _ _ (show n + 0x300 ≠ n by omega),
          getD_set_ne _ _ (show n + 0x200 ≠ n by omega),
          getD_set_ne _ _ (show n + 0x100 ≠ n by omega),
          getD_set_self _ _ (by simp only [List.length_set, hlen]; omega),
          if_pos (by omega), (show n % 0x100 = n by omega),
          (show n / 0x100 = 0 by omega)]
      · have ha1 : n + 0x100 * 1 = n + 0x100 := by omega
        rw [ha1,
          getD_set_ne _ _ (show n + 0x400 ≠ n + 0x100 by omega),
          getD_set_ne _ _ (show n + 0x300 ≠ n + 0x100 by omega),
          getD_set_ne _ _ (show n + 0x200 ≠ n + 0x100 by omega),
          getD_set_self _ _ (by simp only [List.length_set, hlen]; omega),
          if_pos (by omega), (show (n + 0x100) % 0x100 = n by omega),
          (show (n + 0x100) / 0x100 = 1 by omega)]
      · have ha2 : n + 0x100 * 2 = n + 0x200 := by omega
        rw [ha2,
          getD_set_ne _ _ (show n + 0x400 ≠ n + 0x200 by omega),
          getD_set_ne _ _ (show n + 0x300 ≠ n + 0x200 by omega),
          getD_set_self _ _ (by simp only [List.length_set, hlen]; omega),
          if_pos (by omega), (show (n + 0x200) % 0x100 = n by omega),
          (show (n + 0x200) / 0x100 = 2 by omega)]
      · have ha3 : n + 0x100 * 3 = n + 0x300 := by omega
        rw [ha3,
          getD_set_ne _ _ (show n + 0x400 ≠ n + 0x300 by omega),
          getD_set_self _ _ (by simp only [List.length_set, hlen]; omega),
          if_pos (by omega), (show (n + 0x300) % 0x100 = n by omega),
          (show (n + 0x300) / 0x100 = 3 by omega)]
      · have ha4 : n + 0x100 * 4 = n + 0x400 := by omega
        rw [ha4,
          getD_set_self _ _ (by simp only [List.length_set, hlen]; omega),
          if_pos (by omega), (show (n + 0x400) % 0x100 = n by omega),
          (show (n + 0x400) / 0x100 = 4 by omega)]
    · rw [getD_set_ne _ _ (show n + 0x400 ≠ a by omega),
        getD_set_ne _ _ (show n + 0x300 ≠ a by omega),
        getD_set_ne _ _ (show n + 0x200 ≠ a by omega),
        getD_set_ne _ _ (show n + 0x100 ≠ a by omega),
        getD_set_ne _ _ (show n ≠ a by omega)]
      rw [hget a ha]
      by_cases h2 : a % 0x100 < n
      · rw [if_pos h2, if_pos (by omega)]
      · rw [if_neg h2, if_neg (by omega)]

theorem cryptoGet_eq_closed (idx : Nat) : cryptoGet idx = cryptoTableClosed idx := by
  obtain ⟨-, hlen, hget⟩ := crypto_fold_invariant 0x100 le_rfl
  unfold cryptoGet CRYPTO_TABLE generate_crypto_table cryptoTableClosed
  by_cases h : idx < 0x500
  · rw [hget idx h, if_pos h, if_pos (by omega)]
  · rw [if_neg h, List.getD_eq_getElem?_getD,
      List.getElem?_eq_none (by rw [hlen]; omega)]
    rfl

/-! ### Hash evaluation (C7) -/

theorem hashStep_eq_closed (ht : Nat) (lookup : Nat → Nat) :
    hashStep ht lookup = hashStepClosed ht lookup := by
  funext p byte
  simp only [hashStep, hashStepClosed, cryptoGet_eq_closed]

theorem hash_string_eq_foldl (src : List Nat) (ht : Nat) :
    hash_string src ht =
      (List.foldl (hashStep ht asciiUpperLookupSlashSensitive)
        (0x7FED7FED, 0xEEEEEEEE) src).1 := rfl

/-- C7: `hash_string` of the bytes of "(hash table)" in the `FILE_KEY` domain
is `0xC3AF3770`, "(block table)" gives `0xEC83B3A3`, and the `HASH_A` hashes
of "arr\\units.dat" and "arr/units.dat" differ (letters are uppercased but
`/` and `\\` are distinct). -/
theorem c7_hash_stability :
    hash_string [40, 104, 97, 115, 104, 32, 116, 97, 98, 108, 101, 41]
        MPQ_HASH_FILE_KEY = 0xC3AF3770 ∧
    hash_string [40, 98, 108, 111, 99, 107, 32, 116, 97, 98, 108, 101, 41]
        MPQ_HASH_FILE_KEY = 0xEC83B3A3 ∧
    hash_string [97, 114, 114, 92, 117, 110, 105, 116, 115, 46, 100, 97, 116]
        MPQ_HASH_HASH_A ≠
      hash_string [97, 114, 114, 47, 117, 110, 105, 116, 115, 46, 100, 97, 116]
        MPQ_HASH_HASH_A := by
  have h_hash_table : hash_string [40, 104, 97, 115, 104, 32, 116, 97, 98, 108, 101, 41] MPQ_HASH_FILE_KEY = 3283040112 := by
    rw [hash_string_eq_foldl, show MPQ_HASH_FILE_KEY = 768 from rfl, hashStep_eq_closed]
    rw [List.foldl_cons, show hashStepClosed 768 asciiUpperLookupSlashSensitive (2146271213, 4008636142) 40 = (3419811508, 2560818061) from by decide]
    rw [List.foldl_cons, show hashStepClosed 768 asciiUpperLookupSlashSensitive (3419811508, 2560818061) 104 = (1728040025, 335690193) from by decide]
    rw [List.foldl_cons, show hashStepClosed 768 asciiUpperLookupSlashSensitive (1728040025, 335690193) 97 = (4155969464, 2348844013) from by decide]
    rw [List.foldl_cons, show hashStepClosed 768 asciiUpperLookupSlashSensitive (4155969464, 2348844013) 115 = (3495300312, 3697741499) from by decide]
    rw [List.foldl_cons, show hashStepClosed 768 asciiUpperLookupSlashSensitive (3495300312, 3697741499) 104 = (2923167115, 394585073) from by decide]
    rw [List.foldl_cons, show hashStepClosed 768 asciiUpperLookupSlashSensitive (2923167115, 394585073) 32 = (127890323, 264295879) from by decide]
    rw [List.foldl_cons, show hashStepClosed 768 asciiUpperLookupSlashSensitive (127890323, 264295879) 116 = (1319047151, 1450876653) from by decide]
    rw [List.foldl_cons, show hashStepClosed 768 asciiUpperLookupSlashSensitive (1319047151, 1450876653) 97 = (699180878, 1333470239) from by decide]
    rw [List.foldl_cons, show hashStepClosed 768 asciiUpperLookupSlashSensitive (699180878, 1333470239) 98 = (3799978627, 559856327) from by decide]
    rw [List.foldl_cons, show hashStepClosed 768 asciiUpperLookupSlashSensitive (3799978627, 559856327) 108 = (1607304257, 2902693943) from by decide]
    rw [List.foldl_cons, show hashStepClosed 768 asciiUpperLookupSlashSensitive (1607304257, 2902693943) 101 = (2974059976, 4273679655) from by decide]
    rw [List.foldl_cons, show hashStepClosed 768 asciiUpperLookupSlashSensitive (2974059976, 4273679655) 41 = (3283040112, 2580548003) from by decide]
    rw [List.foldl_nil]
  have h_block_table : hash_string [40, 98, 108, 111, 99, 107, 32, 116, 97, 98, 108, 101, 41] MPQ_HASH_FILE_KEY = 3968054179 := by
    rw [hash_string_eq_foldl, show MPQ_HASH_FILE_KEY = 768 from rfl, hashStep_eq_closed]
    rw [List.foldl_cons, show hashStepClosed 768 asciiUpperLookupSlashSensitive (2146271213, 4008636142) 40 = (3419811508, 2560818061) from by decide]
    rw [List.foldl_cons, show hashStepClosed 768 asciiUpperLookupSlashSensitive (3419811508, 2560818061) 98 = (4280415151, 2888065313) from by decide]
    rw [List.foldl_cons, show hashStepClosed 768 asciiUpperLookupSlashSensitive (4280415151, 2888065313) 108 = (4149616091, 671523691) from by decide]
    rw [List.foldl_cons, show hashStepClosed 768 asciiUpperLookupSlashSensitive (4149616091, 671523691) 111 = (1210697757, 1896143162) from by decide]
    rw [List.foldl_cons, show hashStepClosed 768 asciiUpperLookupSlashSensitive (1210697757, 1896143162) 99 = (1552275611, 3995457883) from by decide]
    rw [List.foldl_cons, show hashStepClosed 768 asciiUpperLookupSlashSensitive (1552275611, 3995457883) 107 = (1072166881, 4073258218) from by decide]
    rw [List.foldl_cons, show hashStepClosed 768 asciiUpperLookupSlashSensitive (1072166881, 4073258218) 32 = (4042221092, 1020788849) from by decide]
    rw [List.foldl_cons, show hashStepClosed 768 asciiUpperLookupSlashSensitive (4042221092, 1020788849) 116 = (1949835296, 1276129032) from by decide]
    rw [List.foldl_cons, show hashStepClosed 768 asciiUpperLookupSlashSensitive (1949835296, 1276129032) 97 = (1291667130, 454252294) from by decide]
    rw [List.foldl_cons, show hashStepClosed 768 asciiUpperLookupSlashSensitive (1291667130, 454252294) 98 = (4081599534, 1892056121) from by decide]
    rw [List.foldl_cons, show hashStepClosed 768 asciiUpperLookupSlashSensitive (4081599534, 1892056121) 108 = (941525356, 3249835284) from by decide]
    rw [List.foldl_cons, show hashStepClosed 768 asciiUpperLookupSlashSensitive (941525356, 3249835284) 101 = (1145472816, 1015854860) from by decide]
    rw [List.foldl_cons, show hashStepClosed 768 asciiUpperLookupSlashSensitive (1145472816, 1015854860) 41 = (3968054179, 3131526235) from by decide]
    rw [List.foldl_nil]
  have h_backslash : hash_string [97, 114, 114, 92, 117, 110, 105, 116, 115, 46, 100, 97, 116] MPQ_HASH_HASH_A = 248040217 := by
    rw [hash_string_eq_foldl, show MPQ_HASH_HASH_A = 256 from rfl, hashStep_eq_closed]
    rw [List.foldl_cons, show hashStepClosed 256 asciiUpperLookupSlashSensitive (2146271213, 4008636142) 97 = (2343791050, 1484797628) from by decide]
    rw [List.foldl_cons, show hashStepClosed 256 asciiUpperLookupSlashSensitive (2343791050, 1484797628) 114 = (733848157, 2487529710) from by decide]
    rw [List.foldl_cons, show hashStepClosed 256 asciiUpperLookupSlashSensitive (733848157, 2487529710) 114 = (260854160, 744956051) from by decide]
    rw [List.foldl_cons, show hashStepClosed 256 asciiUpperLookupSlashSensitive (260854160, 744956051) 92 = (370678243, 3479391541) from by decide]
    rw [List.foldl_cons, show hashStepClosed 256 asciiUpperLookupSlashSensitive (370678243, 3479391541) 117 = (1241511647, 97315596) from by decide]
    rw [List.foldl_cons, show hashStepClosed 256 asciiUpperLookupSlashSensitive (1241511647, 97315596) 110 = (1716260849, 632708302) from by decide]
    rw [List.foldl_cons, show hashStepClosed 256 asciiUpperLookupSlashSensitive (1716260849, 632708302) 105 = (3860861328, 3265398890) from by decide]
    rw [List.foldl_cons, show hashStepClosed 256 asciiUpperLookupSlashSensitive (3860861328, 3265398890) 116 = (976516437, 1360497494) from by decide]
    rw [List.foldl_cons, show hashStepClosed 256 asciiUpperLookupSlashSensitive (976516437, 1360497494) 115 = (1480474172, 3427218600) from by decide]
    rw [List.foldl_cons, show hashStepClosed 256 asciiUpperLookupSlashSensitive (1480474172, 3427218600) 46 = (1501491552, 2930555705) from by decide]
    rw [List.foldl_cons, show hashStepClosed 256 asciiUpperLookupSlashSensitive (1501491552, 2930555705) 100 = (965625008, 3184682832) from by decide]
    rw [List.foldl_cons, show hashStepClosed 256 asciiUpperLookupSlashSensitive (965625008, 3184682832) 97 = (303016721, 2318335141) from by decide]
    rw [List.foldl_cons, show hashStepClosed 256 asciiUpperLookupSlashSensitive (303016721, 2318335141) 116 = (248040217, 3738655925) from by decide]
    rw [List.foldl_nil]
  have h_slash : hash_string [97, 114, 114, 47, 117, 110, 105, 116, 115, 46, 100, 97, 116] MPQ_HASH_HASH_A = 340136537 := by
    rw [hash_string_eq_foldl, show MPQ_HASH_HASH_A = 256 from rfl, hashStep_eq_closed]
    rw [List.foldl_cons, show hashStepClosed 256 asciiUpperLookupSlashSensitive (2146271213, 4008636142) 97 = (2343791050, 1484797628) from by decide]
    rw [List.foldl_cons, show hashStepClosed 256 asciiUpperLookupSlashSensitive (2343791050, 1484797628) 114 = (733848157, 2487529710) from by decide]
    rw [List.foldl_cons, show hashStepClosed 256 asciiUpperLookupSlashSensitive (733848157, 2487529710) 114 = (260854160, 744956051) from by decide]
    rw [List.foldl_cons, show hashStepClosed 256 asciiUpperLookupSlashSensitive (260854160, 744956051) 47 = (253933609, 3362646862) from by decide]
    rw [List.foldl_cons, show hashStepClosed 256 asciiUpperLookupSlashSensitive (253933609, 3362646862) 117 = (2064921264, 1363118102) from by decide]
    rw [List.foldl_cons, show hashStepClosed 256 asciiUpperLookupSlashSensitive (2064921264, 1363118102) 110 = (3855832284, 1594089475) from by decide]
    rw [List.foldl_cons, show hashStepClosed 256 asciiUpperLookupSlashSensitive (3855832284, 1594089475) 105 = (787827184, 1853172383) from by decide]
    rw [List.foldl_cons, show hashStepClosed 256 asciiUpperLookupSlashSensitive (787827184, 1853172383) 116 = (261888032, 1287034614) from by decide]
    rw [List.foldl_cons, show hashStepClosed 256 asciiUpperLookupSlashSensitive (261888032, 1287034614) 115 = (2401276289, 1923745677) from by decide]
    rw [List.foldl_cons, show hashStepClosed 256 asciiUpperLookupSlashSensitive (2401276289, 1923745677) 46 = (2083592842, 1142690792) from by decide]
    rw [List.foldl_cons, show hashStepClosed 256 asciiUpperLookupSlashSensitive (2083592842, 1142690792) 100 = (4058564187, 3112654730) from by decide]
    rw [List.foldl_cons, show hashStepClosed 256 asciiUpperLookupSlashSensitive (4058564187, 3112654730) 97 = (1310661364, 949052418) from by decide]
    rw [List.foldl_cons, show hashStepClosed 256 asciiUpperLookupSlashSensitive (1310661364, 949052418) 116 = (340136537, 1594095346) from by decide]
    rw [List.foldl_nil]
  refine ⟨h_hash_table, h_block_table, ?_⟩
  rw [h_backslash, h_slash]
  decide

/-! ### Block crypto: round trip and frame (C2, C8) -/

theorem wordsToBytesLE_length (ws : List Nat) :
    (wordsToBytesLE ws).length = 4 * ws.length := by
  induction ws with
  | nil => rfl
  | cons w rest ih => simp [wordsToBytesLE, ih]; omega

theorem bytesToWordsLE_length : ∀ b : List Nat,
    (bytesToWordsLE b).length = b.length / 4
  | [] => rfl
  | [_] => by simp [bytesToWordsLE]
  | [_, _] => by simp [bytesToWordsLE]
  | [_, _, _] => by simp [bytesToWordsLE]
  | _ :: _ :: _ :: _ :: rest => by
    simp [bytesToWordsLE, bytesToWordsLE_length rest]
    omega

theorem encryptWords_length (k k2 : Nat) (ws : List Nat) :
    (encryptWords k k2 ws).length = ws.length := by
  induction ws generalizing k k2 with
  | nil => rfl
  | cons w rest ih => simp [encryptWords, ih]

theorem decryptWords_length (k k2 : Nat) (ws : List Nat) :
    (decryptWords k k2 ws).length = ws.length := by
  induction ws generalizing k k2 with
  | nil => rfl
  | cons w rest ih => simp [decryptWords, ih]

theorem decrypt_encryptWords (k k2 : Nat) (ws : List Nat) :
    decryptWords k k2 (encryptWords k k2 ws) = ws := by
  induction ws generalizing k k2 with
  | nil => rfl
  | cons w rest ih =>
    have hxc : ∀ a m : Nat, a ^^^ m ^^^ m = a := fun a m => Nat.xor_cancel_right m a
    simp only [encryptWords, decryptWords, hxc]
    rw [ih]

theorem wordsToBytes_bytesToWords : ∀ b : List Nat, b.length % 4 = 0 →
    (∀ x ∈ b, x < 256) → wordsToBytesLE (bytesToWordsLE b) = b
  | [], _, _ => rfl
  | [_], hlen, _ => by simp at hlen
  | [_, _], hlen, _ => by simp at hlen
  | [_, _, _], hlen, _ => by simp at hlen
  | a :: b :: c :: d :: rest, hlen, hb => by
    have hr : rest.length % 4 = 0 := by
      have h : (a :: b :: c :: d :: rest).length = rest.length + 4 := by simp
      omega
    have ha : a < 256 := hb a (by simp)
    have hbb : b < 256 := hb b (by simp)
    have hc : c < 256 := hb c (by simp)
    have hd : d < 256 := hb d (by simp)
    simp only [bytesToWordsLE, wordsToBytesLE, List.cons.injEq]
    refine ⟨by omega, by omega, by omega, by omega, ?_⟩
    exact wordsToBytes_bytesToWords rest hr (fun x hx => hb x (by simp [hx]))

theorem bytesToWords_wordsToBytes : ∀ ws : List Nat,
    (∀ w ∈ ws, w < 4294967296) → bytesToWordsLE (wordsToBytesLE ws) = ws
  | [], _ => rfl
  | w :: rest, hw => by
    have h1 : w < 4294967296 := hw w (by simp)
    simp only [wordsToBytesLE, bytesToWordsLE, List.cons.injEq]
    exact ⟨by omega, bytesToWords_wordsToBytes rest (fun x hx => hw x (by simp [hx]))⟩

theorem bytesToWordsLE_lt : ∀ b : List Nat, (∀ x ∈ b, x < 256) →
    ∀ w ∈ bytesToWordsLE b, w < 4294967296
  | [], _ => by simp [bytesToWordsLE]
  | [_], _ => by simp [bytesToWordsLE]
  | [_, _], _ => by simp [bytesToWordsLE]
  | [_, _, _], _ => by simp [bytesToWordsLE]
  | a :: b :: c :: d :: rest, hb => by
    have ha : a < 256 := hb a (by simp)
    have hbb : b < 256 := hb b (by simp)
    have hc : c < 256 := hb c (by simp)
    have hd : d < 256 := hb d (by simp)
    intro w hw
    simp only [bytesToWordsLE, List.mem_cons] at hw
    rcases hw with h | h
    · omega
    · exact bytesToWordsLE_lt rest (fun x hx => hb x (by simp [hx])) w h

theorem encryptWords_lt (k k2 : Nat) : ∀ ws : List Nat,
    (∀ w ∈ ws, w < 4294967296) → ∀ w ∈ encryptWords k k2 ws, w < 4294967296 := by
  intro ws
  induction ws generalizing k k2 with
  | nil => intro _ w hw; simp [encryptWords] at hw
  | cons x rest ih =>
    intro hws w hw
    simp only [encryptWords, List.mem_cons] at hw
    rcases hw with h | h
    · subst h
      have hx : x < 4294967296 := hws x (by simp)
      have hm : mod32 (k + mod32 (k2 + cryptoGet (MPQ_HASH_KEY2_MIX + (k &&& 0xFF)))) <
          4294967296 := Nat.mod_lt _ (by norm_num)
      have h32 : (4294967296 : Nat) = 2 ^ 32 := by norm_num
      rw [h32] at hx hm ⊢
      exact Nat.xor_lt_two_pow hx hm
    · exact ih _ _ (fun y hy => hws y (by simp [hy])) w h

theorem nat_shiftRight_two (n : Nat) : n >>> 2 = n / 4 := by
  simp [Nat.shiftRight_eq_div_pow]

theorem encrypt_mpq_block_aligned (b : List Nat) (k : Nat)
    (hlen : b.length % 4 = 0) :
    encrypt_mpq_block b k =
      wordsToBytesLE (encryptWords k 0xEEEEEEEE (bytesToWordsLE b)) := by
  have h4 : b.length >>> 2 * 4 = b.length := by rw [nat_shiftRight_two]; omega
  simp only [encrypt_mpq_block]
  rw [h4, List.take_length, List.drop_length, List.append_nil]

theorem decrypt_mpq_block_aligned (b : List Nat) (k : Nat)
    (hlen : b.length % 4 = 0) :
    decrypt_mpq_block b k =
      wordsToBytesLE (decryptWords k 0xEEEEEEEE (bytesToWordsLE b)) := by
  have h4 : b.length >>> 2 * 4 = b.length := by rw [nat_shiftRight_two]; omega
  simp only [decrypt_mpq_block]
  rw [h4, List.take_length, List.drop_length, List.append_nil]

/-- C2: decrypting an encrypted byte region of 4-aligned length with the
same 32-bit key restores it exactly. -/
theorem c2_crypto_roundtrip (b : List Nat) (k : Nat)
    (hlen : b.length % 4 = 0) (hb : ∀ x ∈ b, x < 256) :
    decrypt_mpq_block (encrypt_mpq_block b k) k = b := by
  have hwlt : ∀ w ∈ encryptWords k 0xEEEEEEEE (bytesToWordsLE b),
      w < 4294967296 := encryptWords_lt k 0xEEEEEEEE _ (bytesToWordsLE_lt b hb)
  rw [encrypt_mpq_block_aligned b k hlen,
    decrypt_mpq_block_aligned _ k
      (by rw [wordsToBytesLE_length]; omega),
    bytesToWords_wordsToBytes _ hwlt, decrypt_encryptWords,
    wordsToBytes_bytesToWords b hlen hb]

/-- C2 witness: the round trip at the concrete region `[1, 2, 3, 4]` with
key 7. -/
theorem c2_crypto_roundtrip_witness :
    ([1, 2, 3, 4] : List Nat).length % 4 = 0 ∧
    (∀ x ∈ ([1, 2, 3, 4] : List Nat), x < 256) ∧
    decrypt_mpq_block (encrypt_mpq_block [1, 2, 3, 4] 7) 7 = [1, 2, 3, 4] :=
  ⟨by decide, by decide,
    c2_crypto_roundtrip [1, 2, 3, 4] 7 (by decide) (by decide)⟩

/-- C8: both crypto primitives preserve the buffer length and leave the
trailing `len mod 4` bytes (those past `4 * (len / 4)`) exactly as they
were, for every buffer and key. -/
theorem c8_crypto_frame (b : List Nat) (k : Nat) :
    (encrypt_mpq_block b k).length = b.length ∧
    (encrypt_mpq_block b k).drop (4 * (b.length / 4)) =
      b.drop (4 * (b.length / 4)) ∧
    (decrypt_mpq_block b k).length = b.length ∧
    (decrypt_mpq_block b k).drop (4 * (b.length / 4)) =
      b.drop (4 * (b.length / 4)) := by
  have htake : (b.take (b.length >>> 2 * 4)).length = 4 * (b.length / 4) := by
    rw [List.length_take, nat_shiftRight_two]
    omega
  have hefront : (wordsToBytesLE (encryptWords k 0xEEEEEEEE
      (bytesToWordsLE (b.take (b.length >>> 2 * 4))))).length =
      4 * (b.length / 4) := by
    rw [wordsToBytesLE_length, encryptWords_length, bytesToWordsLE_length,
      htake]
    omega
  have hdfront : (wordsToBytesLE (decryptWords k 0xEEEEEEEE
      (bytesToWordsLE (b.take (b.length >>> 2 * 4))))).length =
      4 * (b.length / 4) := by
    rw [wordsToBytesLE_length, decryptWords_length, bytesToWordsLE_length,
      htake]
    omega
  have hdrop : b.length >>> 2 * 4 = 4 * (b.length / 4) := by
    rw [nat_shiftRight_two]; omega
  refine ⟨?_, ?_, ?_, ?_⟩
  · show (_ ++ b.drop (b.length >>> 2 * 4)).length = b.length
    rw [List.length_append, hefront, List.length_drop, hdrop]
    omega
  · show (_ ++ b.drop (b.length >>> 2 * 4)).drop (4 * (b.length / 4)) = _
    rw [List.drop_left' hefront, hdrop]
  · show (_ ++ b.drop (b.length >>> 2 * 4)).length = b.length
    rw [List.length_append, hdfront, List.length_drop, hdrop]
    omega
  · show (_ ++ b.drop (b.length >>> 2 * 4)).drop (4 * (b.length / 4)) = _
    rw [List.drop_left' hdfront, hdrop]

/-! ### Sector decode (C5, C6) -/

/-- C5: a sector whose raw length equals the expected uncompressed size is
returned verbatim (after in-place decryption when a key is given), without
entering the codec dispatch and without error. -/
theorem c5_stored_uncompressed (co : Codecs) (input : List Nat) (U : Nat)
    (key : Option Nat) (hlen : input.length = U) :
    decode_mpq_block co input U key = .ok (decryptOpt key input) := by
  simp only [decode_mpq_block]
  rw [if_neg (by omega)]

/-- C5 witness: a 2-byte sector with expected size 2 is returned verbatim. -/
theorem c5_stored_uncompressed_witness :
    ([1, 2] : List Nat).length = 2 ∧
    decode_mpq_block codecsOrder [1, 2] 2 none = .ok [1, 2] :=
  ⟨by decide, c5_stored_uncompressed codecsOrder [1, 2] 2 none (by decide)⟩

/-- C6: a compressed sector whose mask byte has the IMA-ADPCM mono,
IMA-ADPCM stereo, or Huffman bit set is rejected with
`UnsupportedCompression` carrying the kind of the first matching check
(mono, then stereo, then Huffman), before any codec runs. -/
theorem c6_unsupported_compression (co : Codecs) (input : List Nat) (U : Nat)
    (key : Option Nat) (ct : Nat) (rest : List Nat)
    (hlen : input.length < U) (hbuf : decryptOpt key input = ct :: rest)
    (hbit : ct &&& (COMPRESSION_IMA_ADPCM_MONO_MONO |||
      COMPRESSION_IMA_ADPCM_MONO_STEREO ||| COMPRESSION_HUFFMAN) ≠ 0) :
    decode_mpq_block co input U key = .error (.UnsupportedCompression
      (if ct &&& COMPRESSION_IMA_ADPCM_MONO_MONO ≠ 0 then "IMA ADCPM Mono"
       else if ct &&& COMPRESSION_IMA_ADPCM_MONO_STEREO ≠ 0 then
         "IMA ADCPM Stereo"
       else "Huffman")) := by
  simp only [decode_mpq_block]
  rw [if_pos hlen, hbuf]
  simp only [decodeCompressed]
  by_cases h1 : ct &&& COMPRESSION_IMA_ADPCM_MONO_MONO ≠ 0
  · rw [if_pos h1, if_pos h1]
  · rw [if_neg h1, if_neg h1]
    by_cases h2 : ct &&& COMPRESSION_IMA_ADPCM_MONO_STEREO ≠ 0
    · rw [if_pos h2, if_pos h2]
    · rw [if_neg h2, if_neg h2]
      have h3 : ct &&& COMPRESSION_HUFFMAN ≠ 0 := by
        intro h3
        apply hbit
        have e1 : ct &&& COMPRESSION_IMA_ADPCM_MONO_MONO = 0 := by
          simpa using h1
        have e2 : ct &&& COMPRESSION_IMA_ADPCM_MONO_STEREO = 0 := by
          simpa using h2
        rw [Nat.and_or_distrib_left, Nat.and_or_distrib_left, e1, e2, h3]
        decide
      rw [if_pos h3]

/-- C6 witness: mask byte `0x01` (Huffman) on a 2-byte sector with expected
size 3 yields the Huffman `UnsupportedCompression` error. -/
theorem c6_unsupported_compression_witness :
    ([1, 0] : List Nat).length < 3 ∧
    decryptOpt none [1, 0] = 1 :: [0] ∧
    1 &&& (COMPRESSION_IMA_ADPCM_MONO_MONO |||
      COMPRESSION_IMA_ADPCM_MONO_STEREO ||| COMPRESSION_HUFFMAN) ≠ 0 ∧
    decode_mpq_block codecsOrder [1, 0] 3 none =
      .error (.UnsupportedCompression "Huffman") := by
  refine ⟨by decide, rfl, by decide, ?_⟩
  have h := c6_unsupported_compression codecsOrder [1, 0] 3 none 1 [0]
    (by decide) rfl (by decide)
  simpa using h

/-! ### Codec order (C1) -/

/-- C1 counterexample: with mask byte `0x0A` (deflate and explode bits), the
source applies explode first and deflate last, so concrete codecs whose
stages are distinguishable give `ok [9, 9]`, while the claimed
deflate-explode-bzip2 order gives `ok [5, 5]`. -/
theorem c1_order_counterexample :
    decode_mpq_block codecsOrder [10, 1] 3 none = .ok [9, 9] ∧
    decode_mpq_block_claim_order codecsOrder [10, 1] 3 none = .ok [5, 5] ∧
    decode_mpq_block codecsOrder [10, 1] 3 none ≠
      decode_mpq_block_claim_order codecsOrder [10, 1] 3 none := by
  have h1 : decode_mpq_block codecsOrder [10, 1] 3 none = .ok [9, 9] := rfl
  have h2 : decode_mpq_block_claim_order codecsOrder [10, 1] 3 none =
      .ok [5, 5] := rfl
  refine ⟨h1, h2, fun heq => ?_⟩
  rw [h1, h2] at heq
  simp at heq

/-- C1 amended: whenever the decrypted mask byte has no unsupported codec
bit — in particular for every mask with more than one supported codec bit —
`decode_mpq_block` applies the flagged codecs in the fixed order PKWARE
explode first, then bzip2, then deflate (zlib), each stage consuming the
previous stage's output. -/
theorem c1_amended_order (co : Codecs) (input : List Nat) (U : Nat)
    (key : Option Nat) (ct : Nat) (rest : List Nat)
    (hlen : input.length < U) (hbuf : decryptOpt key input = ct :: rest)
    (hunsup : ct &&& (COMPRESSION_IMA_ADPCM_MONO_MONO |||
      COMPRESSION_IMA_ADPCM_MONO_STEREO ||| COMPRESSION_HUFFMAN) = 0) :
    decode_mpq_block co input U key =
      ((if ct &&& COMPRESSION_BZIP2 ≠ 0 then
          bzip2Stage co.bzip2Decompress
            (if ct &&& COMPRESSION_PKWARE ≠ 0 then
              explodeStage co.explodeBlocks (ct :: rest) U
            else ct :: rest) U
        else .ok (if ct &&& COMPRESSION_PKWARE ≠ 0 then
              explodeStage co.explodeBlocks (ct :: rest) U
            else ct :: rest)).bind
        (fun b2 => if ct &&& COMPRESSION_ZLIB ≠ 0 then
          zlibStage co.inflate b2 U else .ok b2)) := by
  have e1 : ct &&& COMPRESSION_IMA_ADPCM_MONO_MONO = 0 := by
    rw [show COMPRESSION_IMA_ADPCM_MONO_MONO =
      (COMPRESSION_IMA_ADPCM_MONO_MONO ||| COMPRESSION_IMA_ADPCM_MONO_STEREO
        ||| COMPRESSION_HUFFMAN) &&& COMPRESSION_IMA_ADPCM_MONO_MONO
      from by decide, ← Nat.and_assoc, hunsup]
    decide
  have e2 : ct &&& COMPRESSION_IMA_ADPCM_MONO_STEREO = 0 := by
    rw [show COMPRESSION_IMA_ADPCM_MONO_STEREO =
      (COMPRESSION_IMA_ADPCM_MONO_MONO ||| COMPRESSION_IMA_ADPCM_MONO_STEREO
        ||| COMPRESSION_HUFFMAN) &&& COMPRESSION_IMA_ADPCM_MONO_STEREO
      from by decide, ← Nat.and_assoc, hunsup]
    decide
  have e3 : ct &&& COMPRESSION_HUFFMAN = 0 := by
    rw [show COMPRESSION_HUFFMAN =
      (COMPRESSION_IMA_ADPCM_MONO_MONO ||| COMPRESSION_IMA_ADPCM_MONO_STEREO
        ||| COMPRESSION_HUFFMAN) &&& COMPRESSION_HUFFMAN
      from by decide, ← Nat.and_assoc, hunsup]
    decide
  simp only [decode_mpq_block]
  rw [if_pos hlen, hbuf]
  simp only [decodeCompressed]
  rw [if_neg (by simp [e1]), if_neg (by simp [e2]), if_neg (by simp [e3])]
  rcases hst : (if ct &&& COMPRESSION_BZIP2 ≠ 0 then
      bzip2Stage co.bzip2Decompress
        (if ct &&& COMPRESSION_PKWARE ≠ 0 then
          explodeStage co.explodeBlocks (ct :: rest) U
        else ct :: rest) U
    else Except.ok (if ct &&& COMPRESSION_PKWARE ≠ 0 then
          explodeStage co.explodeBlocks (ct :: rest) U
        else ct :: rest)) with e | b2
  · rfl
  · rfl

/-- C1 amended witness: the chain at the counterexample's own mask byte
`0x0A` (deflate and explode bits) on a concrete sector. -/
theorem c1_amended_order_witness :
    ([10, 1] : List Nat).length < 3 ∧
    decryptOpt none [10, 1] = 10 :: [1] ∧
    10 &&& (COMPRESSION_IMA_ADPCM_MONO_MONO |||
      COMPRESSION_IMA_ADPCM_MONO_STEREO ||| COMPRESSION_HUFFMAN) = 0 ∧
    decode_mpq_block codecsOrder [10, 1] 3 none =
      ((if 10 &&& COMPRESSION_BZIP2 ≠ 0 then
          bzip2Stage codecsOrder.bzip2Decompress
            (if 10 &&& COMPRESSION_PKWARE ≠ 0 then
              explodeStage codecsOrder.explodeBlocks (10 :: [1]) 3
            else 10 :: [1]) 3
        else .ok (if 10 &&& COMPRESSION_PKWARE ≠ 0 then
              explodeStage codecsOrder.explodeBlocks (10 :: [1]) 3
            else 10 :: [1])).bind
        (fun b2 => if 10 &&& COMPRESSION_ZLIB ≠ 0 then
          zlibStage codecsOrder.inflate b2 3 else .ok b2)) :=
  ⟨by decide, rfl, by decide,
    c1_amended_order codecsOrder [10, 1] 3 none 10 [1] (by decide) rfl
      (by decide)⟩

/-! ### Decoded length (C3) -/

theorem zlibStage_ok_length (f : List Nat → Option (List Nat))
    (buf : List Nat) (U : Nat) (out : List Nat)
    (h : zlibStage f buf U = .ok out) : out.length ≤ U := by
  unfold zlibStage at h
  rcases hf : f (buf.drop 1) with _ | d
  · rw [hf] at h; simp at h
  · rw [hf] at h
    injection h with h'
    subst h'
    rw [List.length_take]
    omega

theorem bzip2Stage_ok_length (f : List Nat → Option (List Nat))
    (buf : List Nat) (U : Nat) (out : List Nat)
    (h : bzip2Stage f buf U = .ok out) : out.length ≤ U := by
  unfold bzip2Stage at h
  rcases hf : f (buf.drop 1) with _ | d
  · rw [hf] at h; simp at h
  · rw [hf] at h
    injection h with h'
    subst h'
    rw [List.length_take]
    omega

/-- C3 counterexample: `decode_mpq_block` never checks the decompressed
length against the expected size: with an inflate stream whose output is a
single byte, a deflate sector with expected size 3 decodes to `ok [1]`. -/
theorem c3_length_counterexample :
    decode_mpq_block codecsShort [2, 9] 3 none = .ok [1] ∧
    ([1] : List Nat).length ≠ 3 := ⟨rfl, by decide⟩

theorem decrypt_mpq_block_length (b : List Nat) (k : Nat) :
    (decrypt_mpq_block b k).length = b.length := by
  show (_ ++ b.drop (b.length >>> 2 * 4)).length = b.length
  rw [List.length_append, wordsToBytesLE_length, decryptWords_length,
    bytesToWordsLE_length, List.length_take, List.length_drop,
    nat_shiftRight_two]
  omega

theorem decryptOpt_length (key : Option Nat) (input : List Nat) :
    (decryptOpt key input).length = input.length := by
  cases key with
  | none => rfl
  | some k => exact decrypt_mpq_block_length input k

/-- C3 amended: decode does not enforce equality with the expected size;
for compressed sectors (encrypted or not) whose decrypted mask byte does
not use PKWARE explode, the decoded length is at most `U` (each codec
buffer is `U` bytes, truncated to the codec's output), and the expected
size `U` used by `read_file` for sector `i` of `n` is `sector_size`,
except for the last sector where it is `uncompressed_size mod sector_size`,
or `sector_size` when that remainder is zero. -/
theorem c3_amended_length (co : Codecs) (input out : List Nat) (U : Nat)
    (key : Option Nat) (ct : Nat) (rest : List Nat)
    (hlt : input.length < U)
    (hbuf : decryptOpt key input = ct :: rest)
    (hpk : ct &&& COMPRESSION_PKWARE = 0)
    (hok : decode_mpq_block co input U key = .ok out) :
    out.length ≤ U ∧
    ∀ (entry : BlockEntry) (sector_size i n : Nat),
      sector_uncompressed_size entry sector_size i n =
        if i + 1 = n then
          (if entry.uncompressed_size % sector_size = 0 then sector_size
           else entry.uncompressed_size % sector_size)
        else sector_size := by
  refine ⟨?_, fun entry ss i n => rfl⟩
  simp only [decode_mpq_block] at hok
  rw [if_pos hlt, hbuf] at hok
  simp only [decodeCompressed] at hok
  by_cases h1 : ct &&& COMPRESSION_IMA_ADPCM_MONO_MONO ≠ 0
  · rw [if_pos h1] at hok; simp at hok
  · rw [if_neg h1] at hok
    by_cases h2 : ct &&& COMPRESSION_IMA_ADPCM_MONO_STEREO ≠ 0
    · rw [if_pos h2] at hok; simp at hok
    · rw [if_neg h2] at hok
      by_cases h3 : ct &&& COMPRESSION_HUFFMAN ≠ 0
      · rw [if_pos h3] at hok; simp at hok
      · rw [if_neg h3,
          if_neg (show ¬ct &&& COMPRESSION_PKWARE ≠ 0 by simp [hpk])]
          at hok
        by_cases hbz : ct &&& COMPRESSION_BZIP2 ≠ 0
        · rw [if_pos hbz] at hok
          rcases hst : bzip2Stage co.bzip2Decompress (ct :: rest) U
            with e | b2
          · rw [hst] at hok; simp at hok
          · rw [hst] at hok
            have hb2 : b2.length ≤ U := bzip2Stage_ok_length _ _ _ _ hst
            by_cases hzl : ct &&& COMPRESSION_ZLIB ≠ 0
            · have hok2 : zlibStage co.inflate b2 U = .ok out := by
                rw [← hok]
                show zlibStage co.inflate b2 U =
                  if ct &&& COMPRESSION_ZLIB ≠ 0 then
                    zlibStage co.inflate b2 U else .ok b2
                rw [if_pos hzl]
              exact zlibStage_ok_length _ _ _ _ hok2
            · have hok2 : Except.ok b2 = Except.ok (ε := Error) out := by
                rw [← hok]
                show Except.ok b2 =
                  if ct &&& COMPRESSION_ZLIB ≠ 0 then
                    zlibStage co.inflate b2 U else .ok b2
                rw [if_neg hzl]
              injection hok2 with hout
              subst hout
              exact hb2
        · rw [if_neg hbz] at hok
          have hok2 : (if ct &&& COMPRESSION_ZLIB ≠ 0 then
              zlibStage co.inflate (ct :: rest) U
            else .ok (ct :: rest)) = .ok out := hok
          by_cases hzl : ct &&& COMPRESSION_ZLIB ≠ 0
          · rw [if_pos hzl] at hok2
            exact zlibStage_ok_length _ _ _ _ hok2
          · rw [if_neg hzl] at hok2
            injection hok2 with hout
            subst hout
            have hlen2 : (ct :: rest).length = input.length := by
              rw [← hbuf, decryptOpt_length]
            omega

/-- C3 amended witness: the deflate-only sector `[2, 9]` with expected size
3 decodes to a byte string of length at most 3. -/
theorem c3_amended_length_witness :
    ([2, 9] : List Nat).length < 3 ∧
    decryptOpt none [2, 9] = 2 :: [9] ∧
    2 &&& COMPRESSION_PKWARE = 0 ∧
    decode_mpq_block codecsShort [2, 9] 3 none = .ok [1] ∧
    ([1] : List Nat).length ≤ 3 :=
  ⟨by decide, rfl, by decide, rfl,
    (c3_amended_length codecsShort [2, 9] [1] 3 none 2 [9] (by decide) rfl
      (by decide) rfl).1⟩

/-! ### Compress/decode round trip (C10) -/

/-- C10: decoding `compress_mpq_block`'s output with expected size `len(b)`
and no key restores `b`, assuming the external codec round trip
`inflate (deflate b) = some b`; moreover the compressed form is either `b`
verbatim (when compression does not shrink it) or a strictly smaller block
prefixed with the zlib mask byte. -/
theorem c10_compress_decode_roundtrip (co : Codecs) (b : List Nat)
    (hrt : co.inflate (co.deflate b) = some b) :
    decode_mpq_block co (compress_mpq_block co b) b.length none = .ok b ∧
    (compress_mpq_block co b = b ∨
      ((compress_mpq_block co b).length < b.length ∧
        (compress_mpq_block co b).headD 0 = COMPRESSION_ZLIB)) := by
  by_cases hge : min (co.deflate b).length b.length + 1 ≥ b.length
  · have hc : compress_mpq_block co b = b := by
      simp only [compress_mpq_block]
      rw [if_pos hge]
    rw [hc]
    refine ⟨?_, Or.inl rfl⟩
    simp only [decode_mpq_block, decryptOpt]
    rw [if_neg (by omega)]
  · have hmin : min (co.deflate b).length b.length =
        (co.deflate b).length := by omega
    have hc : compress_mpq_block co b = COMPRESSION_ZLIB :: co.deflate b := by
      simp only [compress_mpq_block]
      rw [if_neg hge, hmin, List.take_length]
    have hlt : (co.deflate b).length + 1 < b.length := by omega
    rw [hc]
    constructor
    · simp only [decode_mpq_block, decryptOpt]
      rw [if_pos (by simp only [List.length_cons]; omega)]
      simp only [decodeCompressed]
      rw [if_neg (by decide), if_neg (by decide), if_neg (by decide),
        if_neg (by decide), if_neg (by decide)]
      show (if COMPRESSION_ZLIB &&& COMPRESSION_ZLIB ≠ 0 then
          zlibStage co.inflate (COMPRESSION_ZLIB :: co.deflate b) b.length
        else .ok (COMPRESSION_ZLIB :: co.deflate b)) = .ok b
      rw [if_pos (by decide)]
      unfold zlibStage
      rw [show (COMPRESSION_ZLIB :: co.deflate b).drop 1 = co.deflate b
        from rfl, hrt]
      show Except.ok (b.take b.length) = Except.ok b
      rw [List.take_length]
    · refine Or.inr ⟨by simp only [List.length_cons]; omega, rfl⟩

/-- C10 witness: a concrete deflate/inflate pair round-trips the bytes
`[7, 7, 7, 7, 7]` through compress then decode. -/
theorem c10_compress_decode_roundtrip_witness :
    codecsRoundtrip.inflate (codecsRoundtrip.deflate [7, 7, 7, 7, 7]) =
      some [7, 7, 7, 7, 7] ∧
    decode_mpq_block codecsRoundtrip
      (compress_mpq_block codecsRoundtrip [7, 7, 7, 7, 7]) 5 none =
        .ok [7, 7, 7, 7, 7] :=
  ⟨rfl, by
    have h := (c10_compress_decode_roundtrip codecsRoundtrip [7, 7, 7, 7, 7]
      rfl).1
    simpa using h⟩

/-! ### Plain name and the file-key schedule (C4) -/

theorem plainName_fold_append (xs : List Nat) (x : Nat) :
    ∀ n, n ≤ xs.length → ∀ a : List Nat,
      (List.range n).foldl (plainNameStep (xs ++ [x])) (a ++ [x]) =
        ((List.range n).foldl (plainNameStep xs) a) ++ [x] := by
  intro n
  induction n with
  | zero => intro _ a; simp
  | succ n ih =>
    intro hn a
    rw [show List.range (n + 1) = List.range n ++ [n] from List.range_succ n,
      List.foldl_append, List.foldl_append, List.foldl_cons, List.foldl_nil,
      List.foldl_cons, List.foldl_nil, ih (by omega)]
    unfold plainNameStep
    have hget : (xs ++ [x]).getD n 0 = xs.getD n 0 := by
      rw [List.getD_eq_getElem?_getD, List.getD_eq_getElem?_getD,
        List.getElem?_append_left (show n < xs.length by omega)]
    rw [hget]
    by_cases hsep : (xs.getD n 0 == 92 || xs.getD n 0 == 47) = true
    · rw [if_pos hsep, if_pos hsep,
        List.drop_append_of_le_length (by omega)]
    · rw [if_neg hsep, if_neg hsep]

theorem get_plain_name_eq_spec (input : List Nat) :
    get_plain_name input = plain_name_spec input := by
  induction input using List.reverseRecOn with
  | nil => rfl
  | append_singleton xs x ih =>
    unfold get_plain_name
    rw [show (xs ++ [x]).length = xs.length + 1 from by simp,
      show List.range (xs.length + 1) = List.range xs.length ++ [xs.length]
        from List.range_succ _,
      List.foldl_append, List.foldl_cons, List.foldl_nil,
      plainName_fold_append xs x xs.length le_rfl xs,
      show List.foldl (plainNameStep xs) xs (List.range xs.length) =
        plain_name_spec xs from ih]
    unfold plainNameStep
    have hget : (xs ++ [x]).getD xs.length 0 = x := by
      rw [List.getD_eq_getElem?_getD, List.getElem?_append_right le_rfl]
      simp
    rw [hget]
    unfold plain_name_spec
    rw [List.reverse_append]
    simp only [List.reverse_cons, List.reverse_nil, List.nil_append,
      List.cons_append, List.singleton_append]
    by_cases hsep : (x == 92 || x == 47) = true
    · rw [if_pos hsep,
        List.drop_of_length_le (by simp),
        List.takeWhile_cons_of_neg (by simp [hsep])]
      rfl
    · have hsep' : (x == 92 || x == 47) = false := by
        revert hsep
        cases x == 92 || x == 47 <;> simp
      rw [if_neg hsep, List.takeWhile_cons_of_pos (by simp [hsep']),
        List.reverse_cons]

/-- C4: the file key and its uses in `read_file` are exactly as the claim
words them — the key is `hash(plain_name, FILE_KEY)` where `plain_name` is
the substring after the last `/` or `\`, `(key + file_pos) XOR
uncompressed_size` (wrapping) when the `KEY_ADJUSTED` flag is set; the
sector-offset vector is decrypted with `key - 1` and payload sector `i`
with `key + i`, both wrapping modulo 2^32. -/
theorem c4_file_key_schedule (co : Codecs) (reader : List Nat)
    (sector_size : Nat) (entry : BlockEntry) (name : List Nat) :
    calculate_file_key name entry.file_pos entry.uncompressed_size
        entry.is_key_adjusted =
      file_key_spec name entry.file_pos entry.uncompressed_size
        entry.is_key_adjusted ∧
    read_file co reader sector_size entry name =
      read_file_spec_keys co reader sector_size entry name := by
  have hkey : calculate_file_key name entry.file_pos entry.uncompressed_size
      entry.is_key_adjusted =
      file_key_spec name entry.file_pos entry.uncompressed_size
        entry.is_key_adjusted := by
    unfold calculate_file_key file_key_spec
    rw [get_plain_name_eq_spec]
  refine ⟨hkey, ?_⟩
  unfold read_file read_file_spec_keys
  rw [hkey]

/-! ### Listfile parsing (C9) -/

theorem split_newlines_ne_nil (c : List Nat) : split_newlines c ≠ [] := by
  cases c with
  | nil => simp [split_newlines]
  | cons b rest =>
    simp only [split_newlines]
    by_cases h : (b == 13 || b == 10) = true
    · rw [if_pos h]; simp
    · rw [if_neg h]
      rcases hs : split_newlines rest with _ | ⟨s, ss⟩ <;> simp

theorem split_newlines_append (cur c : List Nat)
    (hcur : ∀ b ∈ cur, (b == 13 || b == 10) = false) :
    split_newlines (cur ++ c) =
      (cur ++ (split_newlines c).headD []) :: (split_newlines c).tail := by
  induction cur with
  | nil =>
    simp only [List.nil_append]
    rcases hs : split_newlines c with _ | ⟨s, ss⟩
    · exact absurd hs (split_newlines_ne_nil c)
    · simp
  | cons b bs ih =>
    have hb : (b == 13 || b == 10) = false := hcur b (by simp)
    simp only [List.cons_append, split_newlines]
    rw [if_neg (by simp [hb])]
    simp only [List.append_eq]
    rw [ih (fun y hy => hcur y (by simp [hy]))]

theorem files_lines_eq (c : List Nat) : ∀ cur : List Nat,
    (∀ b ∈ cur, (b == 13 || b == 10) = false) →
    files_lines cur c =
      ((split_newlines (cur ++ c)).dropLast).filter line_kept := by
  induction c with
  | nil =>
    intro cur hcur
    rw [split_newlines_append cur [] hcur]
    simp [files_lines, split_newlines]
  | cons b rest ih =>
    intro cur hcur
    by_cases hnl : (b == 13 || b == 10) = true
    · rw [split_newlines_append cur (b :: rest) hcur]
      have hsplit : split_newlines (b :: rest) = [] :: split_newlines rest := by
        simp only [split_newlines]
        rw [if_pos hnl]
      rw [hsplit]
      simp only [List.headD_cons, List.tail_cons, List.append_nil]
      obtain ⟨s, ss, hs⟩ : ∃ s ss, split_newlines rest = s :: ss := by
        rcases hq : split_newlines rest with _ | ⟨s, ss⟩
        · exact absurd hq (split_newlines_ne_nil rest)
        · exact ⟨s, ss, rfl⟩
      rw [hs, show (cur :: s :: ss).dropLast = cur :: (s :: ss).dropLast
        from rfl, ← hs]
      simp only [files_lines]
      rw [if_pos hnl, ih [] (by simp)]
      simp only [List.nil_append, List.filter_cons]
      by_cases hk : line_kept cur = true
      · obtain ⟨h1, h2⟩ : 0 < cur.length ∧ validUtf8 cur = true := by
          simpa [line_kept] using hk
        rw [if_pos hk, if_pos h1, if_pos h2]
      · rw [if_neg hk]
        by_cases h1 : cur.length > 0
        · have h2 : ¬validUtf8 cur = true := by
            intro h2
            exact hk (by simp [line_kept, h1, h2])
          rw [if_pos h1, if_neg h2]
        · rw [if_neg h1]
    · have hb : (b == 13 || b == 10) = false := by
        revert hnl
        cases b == 13 || b == 10 <;> simp
      rw [show cur ++ b :: rest = (cur ++ [b]) ++ rest from by simp,
        ← ih (cur ++ [b]) (by
          intro y hy
          rcases List.mem_append.mp hy with h | h
          · exact hcur y h
          · simp only [List.mem_singleton] at h
            subst h
            exact hb)]
      simp only [files_lines]
      rw [if_neg hnl]

/-- C9 counterexample: `files` drops a final line that is not terminated by
`\r` or `\n` — on listfile bytes `"a\nb"` it returns only `["a"]`, not the
claimed list of all non-empty lines — and it returns `none` for any failed
read, not only a missing `(listfile)`: a `Corrupted` read also gives
`none`. -/
theorem c9_files_counterexample :
    files (.ok [97, 10, 98]) = some [[97]] ∧
    all_lines_claim [97, 10, 98] = [[97], [98]] ∧
    files (.ok [97, 10, 98]) ≠ some (all_lines_claim [97, 10, 98]) ∧
    files (.error .Corrupted) = none ∧
    Error.Corrupted ≠ Error.FileNotFound := by
  have h1 : files (.ok [97, 10, 98]) = some [[97]] := rfl
  have h2 : all_lines_claim [97, 10, 98] = [[97], [98]] := rfl
  refine ⟨h1, h2, fun h => ?_, rfl, by decide⟩
  rw [h1, h2] at h
  simp at h

/-- C9 amended: `files` returns `none` exactly when reading `(listfile)`
fails (in particular when it is absent), and otherwise returns, in file
order, exactly the non-empty valid-UTF-8 lines that are terminated by `\r`
or `\n` (a trailing unterminated segment is dropped). -/
theorem c9_amended_files (res : Except Error (List Nat)) :
    (files res = none ↔ ∃ e, res = .error e) ∧
    ∀ content, res = .ok content →
      files res = some (terminated_lines_spec content) := by
  constructor
  · cases res with
    | error e => simp [files]
    | ok c => simp [files]
  · intro content hres
    subst hres
    simp only [files]
    rw [files_lines_eq content [] (by simp)]
    simp [terminated_lines_spec]

/-- C9 amended witness: the terminated line `"a\n"` parses to `["a"]`. -/
theorem c9_amended_files_witness :
    files (.ok [97, 10]) = some (terminated_lines_spec [97, 10]) :=
  (c9_amended_files (.ok [97, 10])).2 [97, 10] rfl

end CeresMpq
